import Mathlib

/-!
Verification of the `ssm-jax-refactor` EM fitting harness and HMM model layer.

The development shallowly embeds, over exact rationals, the generic EM driver
`em` from `ssm/inference/em.py` and the HMM model methods from
`ssm/hmm/models.py` / `ssm/hmm/transitions.py` that the specification talks
about.  Floating-point arrays are replaced by `ℚ` (with a designated
non-finite value `FVal.nonfin` standing for NaN/Inf), Python exceptions by an
`Except` result, and quantities that live in log-space in the source are
carried here in probability ("weight") space: for exact arithmetic,
`exp(logits - logsumexp(logits))` is exactly `w / w.sum` for `w = exp(logits)`,
so normalisation-by-logsumexp in the source becomes division by the row sum
over positive weights here.
-/

namespace SsmJax

/-- A marginal log-likelihood value as produced by `model.marginal_likelihood(...).sum()`:
either a finite number or a non-finite one (NaN or ±Inf), which is what
`np.isfinite` distinguishes in `em.py`. -/
inductive FVal where
  | fin (q : ℚ)
  | nonfin
deriving DecidableEq, Repr

/-- `np.isfinite(lp)` from `em.py` line 71. -/
def FVal.isfinite : FVal → Bool
  | .fin _ => true
  | .nonfin => false

/-- The Python exceptions that can escape an `em()` run in `em.py`:
`assertNonFinite` is the `assert np.isfinite(lp)` failure (an `AssertionError`),
`attrNone` is the `AttributeError` raised by evaluating `new_model._parameters`
when `model.m_step(...)` returned `None`, and `unboundPosterior` is the
`UnboundLocalError` raised by the final `return ... posterior` when the loop
body never executed. -/
inductive EmError where
  | assertNonFinite
  | attrNone
  | unboundPosterior
deriving DecidableEq, Repr

/-- The model contract consumed by the EM driver (`em.py` docstring and spec §6):
`e_step`, `marginal_likelihood` (already summed over the batch), `m_step`, and
the gettable parameter snapshot `params` (Python `model._parameters`).
`m_step` yields the parameter record of the object the Python method returns,
or `none` when the Python method returns `None` (no `return` statement). -/
structure Model (P Post D : Type) where
  params : P
  e_step : P → D → Post
  marginal_likelihood : P → D → Post → FVal
  m_step : P → D → Post → Option P

/-- Observable driver-side state threaded through an `em()` run:
`modelSlot` is the model's parameter record `model._parameters`;
`directWrites` counts the driver's direct assignments to that slot
(outside the injection context); `itersRun` counts executed loop bodies
(calls of `update`); `warnsEmitted` counts `warnings.warn` calls issued by
the driver. -/
structure EmState (P : Type) where
  modelSlot : P
  directWrites : ℕ
  itersRun : ℕ
  warnsEmitted : ℕ
deriving Repr

variable {P Post D E A : Type}

/-- Modelled from the spec: `ssm.base.SSM.inject` is not under `src/` (only its
caller `em.update` is).  Spec §4.5 ParameterInjectionContext: "given a model
instance and a replacement parameter record, temporarily make the model behave
as if constructed with those parameters for the duration of a scoped block, and
guarantee restoration of the prior parameters on every exit path (normal
return, early return, or raised error)".  `slot` is the pre-scope content of
the model's parameter slot, `params` the replacement record, and `body` the
scoped block, which runs against the injected parameters and may itself leave
the slot in an arbitrary state; the context restores `slot` on both exits. -/
def inject (slot : P) (params : P) (body : P → Except E (A × P)) :
    Except E A × P :=
  match body params with
  | .ok (a, _slotAfterBody) => (.ok a, slot)
  | .error e => (.error e, slot)

/-- The body of `em.update` (`em.py` lines 44-57), run inside
`with model.inject(parameters):` —

    posterior = model.e_step(data, ...)
    lp = model.marginal_likelihood(data, posterior, ...).sum()
    new_model = model.m_step(data, posterior, ...)
    parameters = new_model._parameters

Reading `._parameters` off `None` raises `AttributeError` (`attrNone`).
Returns the update's result together with the model slot after the scope. -/
def emUpdate (m : Model P Post D) (data : D) (slot : P) (parameters : P) :
    Except EmError (P × Post × FVal) × P :=
  inject slot parameters (fun p =>
    let posterior := m.e_step p data
    let lp := m.marginal_likelihood p data posterior
    match m.m_step p data posterior with
    | none => .error .attrNone
    | some newParams => .ok ((newParams, posterior, lp), p))

/-- The `for itr in pbar:` loop of `em` (`em.py` lines 69-85), with `fuel`
iterations left and `itr` the current index (the driver starts at
`fuel = num_iters`, `itr = 0`).  Per iteration:

    parameters, posterior, lp = update(parameters)
    assert np.isfinite(lp), "NaNs in marginal log probability"
    log_probs.append(lp)
    if itr > 1:
        if log_probs[-1] < log_probs[-2]:
            pass # warnings.warn(UserWarning("LP is decreasing in EM fit!"))
        if abs(log_probs[-1] - log_probs[-2]) < tol and verbosity > Verbosity.OFF:
            ...; break

`ssm.utils.Verbosity` and `ssm_pbar` are not under `src/`; verbosity enters
the loop's control flow only through the boolean `verbosity > Verbosity.OFF`,
embedded as `vGtOff`.  The decrease check is a `pass`: the `warnings.warn`
call is commented out in the source, so `warnsEmitted` is never incremented. -/
def emLoop (m : Model P Post D) (data : D) (tol : ℚ) (vGtOff : Bool) :
    ℕ → ℕ → P → List ℚ → Option Post → EmState P →
    Except EmError (List ℚ × Option Post × P) × EmState P
  | 0, _itr, parameters, log_probs, posterior, st =>
      (.ok (log_probs, posterior, parameters), st)
  | fuel + 1, itr, parameters, log_probs, _posterior, st =>
      let r := emUpdate m data st.modelSlot parameters
      let st1 : EmState P :=
        { st with modelSlot := r.2, itersRun := st.itersRun + 1 }
      match r.1 with
      | .error e => (.error e, st1)
      | .ok (parameters', posterior', lp) =>
        match lp with
        | .nonfin => (.error .assertNonFinite, st1)
        | .fin q =>
          let log_probs' := log_probs ++ [q]
          if itr > 1 then
            match log_probs.getLast? with
            | some prev =>
                if |q - prev| < tol ∧ vGtOff = true then
                  (.ok (log_probs', some posterior', parameters'), st1)
                else
                  emLoop m data tol vGtOff fuel (itr + 1) parameters'
                    log_probs' (some posterior') st1
            | none =>
                emLoop m data tol vGtOff fuel (itr + 1) parameters'
                  log_probs' (some posterior') st1
          else
            emLoop m data tol vGtOff fuel (itr + 1) parameters'
              log_probs' (some posterior') st1

/-- The driver `em` (`em.py` lines 10-90).  After the loop it executes

    model._parameters = parameters    # direct write, line 88
    return np.array(log_probs), model, posterior

where `posterior` is unbound (an `UnboundLocalError`) when the loop body
never ran.  On success the returned triple carries the bound history, the
fitted parameter record and the last posterior. -/
def em (m : Model P Post D) (data : D) (num_iters : ℕ) (tol : ℚ)
    (vGtOff : Bool) :
    Except EmError (List ℚ × P × Post) × EmState P :=
  let st0 : EmState P :=
    { modelSlot := m.params, directWrites := 0, itersRun := 0, warnsEmitted := 0 }
  match emLoop m data tol vGtOff num_iters 0 m.params [] none st0 with
  | (.error e, st) => (.error e, st)
  | (.ok (log_probs, posterior, parameters), st) =>
      let st' : EmState P :=
        { st with modelSlot := parameters, directWrites := st.directWrites + 1 }
      match posterior with
      | none => (.error .unboundPosterior, st')
      | some post => (.ok (log_probs, parameters, post), st')

/-! ### HMM model layer (`ssm/hmm/models.py`, `ssm/hmm/transitions.py`)

Log-space quantities are carried in weight (probability) space: a raw logits
vector `x` of the source corresponds here to the positive weight vector
`w = exp(x)`, and the source's `x - logsumexp(x)` corresponds exactly (in
exact arithmetic) to `w / w.sum`. -/

/-- Elementwise sum of two equal-length vectors (`numpy` broadcast `+`). -/
def vecAdd (a b : List ℚ) : List ℚ := List.zipWith (· + ·) a b

/-- `np.sum(·, axis=0)` over a batch of equal-length vectors of length `k`. -/
def sumVecs (k : ℕ) (l : List (List ℚ)) : List ℚ :=
  l.foldl vecAdd (List.replicate k 0)

/-- Weight-space counterpart of `x - logsumexp(x)` along a row: divide every
entry by the row sum. -/
def rowNormalize (row : List ℚ) : List ℚ := row.map (fun w => w / row.sum)

/-- `tfp.distributions.Dirichlet(concentration=α).mode()`:
`(α - 1) / (α.sum - K)` elementwise. -/
def dirichletMode (conc : List ℚ) : List ℚ :=
  conc.map (fun a => (a - 1) / (conc.sum - (conc.length : ℚ)))

/-- `HMMPosterior(marginal_likelihood, Ez, Ezzp1)` (imported by
`ssm/hmm/models.py`): per-batch marginal likelihoods, expected state occupancy
`Ez` with shape `(B, T, K)`, and expected transition counts `Ezzp1` summed to
shape `(B, K, K)` as consumed by the M-steps below. -/
structure HMMPosterior where
  marginal_likelihood : List ℚ
  expected_states : List (List (List ℚ))
  expected_transitions : List (List (List ℚ))

/-- The `HMM` model state of `ssm/hmm/models.py`, in weight space:
`initial_weights = exp(initial logits)`, `transition_weights = exp(transition
logits)` (row-major, `K × K`), an abstract per-state emission likelihood
function (the emission distribution family is subclass-specific), and the
Dirichlet prior concentrations set in `HMM.__init__`. -/
structure HMM where
  num_states : ℕ
  initial_weights : List ℚ
  transition_weights : List (List ℚ)
  emission_ll : ℕ → ℚ → ℚ
  initial_prior_concentration : List ℚ
  transition_prior_concentration : List (List ℚ)

/-- `HMM.natural_parameters` (`ssm/hmm/models.py` lines 117-140):

    log_initial_state_distn = self._initial_distribution.logits_parameter()
    log_transition_matrix = self._transition_distribution.logits_parameter()
    log_transition_matrix -= spsp.logsumexp(log_transition_matrix, axis=1, keepdims=True)
    log_likelihoods = vmap(...)  # (T, K) after transpose
    return log_initial_state_distn, log_transition_matrix, log_likelihoods

In weight space: the initial weights are returned as-is (no normalisation in
the source), each transition row is divided by its sum (the per-row logsumexp
subtraction), and the likelihood matrix is `T × K`. -/
def HMM.natural_parameters (h : HMM) (data : List ℚ) :
    List ℚ × List (List ℚ) × List (List ℚ) :=
  (h.initial_weights,
   h.transition_weights.map rowNormalize,
   data.map (fun x => (List.range h.num_states).map (fun k => h.emission_ll k x)))

/-- `StationaryTransitions.transition_log_probs` (`ssm/hmm/transitions.py`
lines 94-97): the same per-row logsumexp normalisation of the transition
logits, on the standalone transitions object. -/
def StationaryTransitions.transition_log_probs
    (transition_weights : List (List ℚ)) (_data : List ℚ) : List (List ℚ) :=
  transition_weights.map rowNormalize

/-- `HMM._m_step_initial_distribution` (`ssm/hmm/models.py` lines 159-163):

    stats = np.sum(posteriors.expected_states[:, 0, :], axis=0)
    stats += self._initial_distribution_prior.concentration
    conditional = tfp.distributions.Dirichlet(concentration=stats)
    self._initial_distribution = tfp.distributions.Categorical(probs=conditional.mode())
-/
def HMM.m_step_initial_distribution (h : HMM) (post : HMMPosterior) : HMM :=
  let stats := sumVecs h.num_states (post.expected_states.map (fun ez => ez.headD []))
  let stats := vecAdd stats h.initial_prior_concentration
  { h with initial_weights := dirichletMode stats }

/-- `HMM._m_step_transition_distribution` (`ssm/hmm/models.py` lines 165-169):
batch-sum the expected transition counts, add the Dirichlet prior
concentration, and set the transition distribution to the conditional's mode
(rowwise Dirichlet mode). -/
def HMM.m_step_transition_distribution (h : HMM) (post : HMMPosterior) : HMM :=
  let stats := post.expected_transitions.foldl
    (fun acc mat => List.zipWith vecAdd acc mat)
    (List.replicate h.num_states (List.replicate h.num_states 0))
  let stats := List.zipWith vecAdd stats h.transition_prior_concentration
  { h with transition_weights := stats.map dirichletMode }

/-- `HMM.m_step` (`ssm/hmm/models.py` lines 174-177):

    def m_step(self, dataset, posteriors):
        self._m_step_initial_distribution(posteriors)
        self._m_step_transition_distribution(posteriors)
        self._m_step_emission_distribution(dataset, posteriors)

The method mutates `self` and has no `return` statement, so Python returns
`None`: the second component of the result is the method's return value.
`_m_step_emission_distribution` raises `NotImplementedError` in the base class
and is overridden per subclass (`GaussianHMM`, `PoissonHMM`); it is passed
here as the function `emissionUpdate` mutating only the emission state. -/
def HMM.m_step (h : HMM) (emissionUpdate : HMM → List ℚ → HMMPosterior → HMM)
    (dataset : List ℚ) (post : HMMPosterior) : HMM × Option HMM :=
  let h1 := h.m_step_initial_distribution post
  let h2 := h1.m_step_transition_distribution post
  let h3 := emissionUpdate h2 dataset post
  (h3, none)

/-! ### Concrete instances used to exercise the driver -/

/-- A minimal model satisfying the driver's contract: parameters are a single
rational, the E-step returns the current parameter as its "posterior", the
marginal likelihood and the M-step are arbitrary functions of the current
parameter. -/
def toyModel (p0 : ℚ) (f : ℚ → ℚ) (g : ℚ → FVal) : Model ℚ ℚ Unit :=
  { params := p0
    e_step := fun p _ => p
    marginal_likelihood := fun p _ _ => g p
    m_step := fun p _ _ => some (f p) }

/-- Toy model whose marginal likelihood is constantly `0`. -/
def constModel : Model ℚ ℚ Unit := toyModel 0 id (fun _ => .fin 0)

/-- Toy model whose marginal likelihood strictly decreases across
iterations (`lp` at iteration `i` is `-i`). -/
def decModel : Model ℚ ℚ Unit := toyModel 0 (· + 1) (fun p => .fin (-p))

/-- Toy model whose marginal likelihood equals the current parameter and whose
M-step increments the parameter. -/
def stepModel : Model ℚ ℚ Unit := toyModel 0 (· + 1) (fun p => .fin p)

/-- Toy model whose marginal likelihood is non-finite. -/
def nanModel : Model ℚ ℚ Unit := toyModel 0 id (fun _ => .nonfin)

/-! ### Helper lemmas about the driver -/

/-- The injection context restores the pre-scope slot: the second component of
`emUpdate` is always the incoming slot. -/
theorem emUpdate_snd (m : Model P Post D) (data : D) (slot p : P) :
    (emUpdate m data slot p).2 = slot := by
  unfold emUpdate inject
  rcases h : m.m_step p data (m.e_step p data) with _ | w <;> simp [h]

/-- When the model's `m_step` returns a record, `emUpdate` succeeds with the
posterior and marginal likelihood computed from the incoming parameters. -/
theorem emUpdate_eq_of_m_step_some (m : Model P Post D) (data : D) (slot p newP : P)
    (h : m.m_step p data (m.e_step p data) = some newP) :
    emUpdate m data slot p =
      (.ok (newP, m.e_step p data, m.marginal_likelihood p data (m.e_step p data)),
       slot) := by
  unfold emUpdate inject
  simp [h]

/-- When the model's `m_step` returns `None`, `emUpdate` fails with the
`AttributeError` from `new_model._parameters`. -/
theorem emUpdate_eq_of_m_step_none (m : Model P Post D) (data : D) (slot p : P)
    (h : m.m_step p data (m.e_step p data) = none) :
    emUpdate m data slot p = (.error .attrNone, slot) := by
  unfold emUpdate inject
  simp [h]

/-- The driver state after one executed loop body: only `itersRun` changes
(the injection context restores the model slot, and the driver neither writes
the slot nor warns inside the loop). -/
def bump (st : EmState P) : EmState P := { st with itersRun := st.itersRun + 1 }

/-- One loop step when `update` raises: the error propagates. -/
theorem emLoop_step_err (m : Model P Post D) (data : D) (tol : ℚ) (v : Bool)
    (fuel itr : ℕ) (params : P) (lps : List ℚ) (post : Option Post)
    (st : EmState P) (e : EmError)
    (h : (emUpdate m data st.modelSlot params).1 = .error e) :
    emLoop m data tol v (fuel + 1) itr params lps post st = (.error e, bump st) := by
  simp only [emLoop, h, bump, emUpdate_snd]

/-- One loop step when the marginal likelihood is non-finite: the
`assert np.isfinite(lp)` fails. -/
theorem emLoop_step_nonfin (m : Model P Post D) (data : D) (tol : ℚ) (v : Bool)
    (fuel itr : ℕ) (params p' : P) (lps : List ℚ) (post : Option Post)
    (post' : Post) (st : EmState P)
    (h : (emUpdate m data st.modelSlot params).1 = .ok (p', post', .nonfin)) :
    emLoop m data tol v (fuel + 1) itr params lps post st =
      (.error .assertNonFinite, bump st) := by
  simp only [emLoop, h, bump, emUpdate_snd]

/-- One loop step with a finite likelihood during the first two iterations
(`itr ≤ 1`): the convergence block is skipped and the loop recurses. -/
theorem emLoop_step_early (m : Model P Post D) (data : D) (tol : ℚ) (v : Bool)
    (fuel itr : ℕ) (params p' : P) (lps : List ℚ) (post : Option Post)
    (post' : Post) (q : ℚ) (st : EmState P)
    (h : (emUpdate m data st.modelSlot params).1 = .ok (p', post', .fin q))
    (hitr : ¬ itr > 1) :
    emLoop m data tol v (fuel + 1) itr params lps post st =
      emLoop m data tol v fuel (itr + 1) p' (lps ++ [q]) (some post') (bump st) := by
  simp only [emLoop, h, hitr, if_false, bump, emUpdate_snd]

/-- One loop step with a finite likelihood, `itr > 1` and the convergence
condition satisfied: the loop breaks with the appended history. -/
theorem emLoop_step_break (m : Model P Post D) (data : D) (tol : ℚ) (v : Bool)
    (fuel itr : ℕ) (params p' : P) (lps : List ℚ) (post : Option Post)
    (post' : Post) (q prev : ℚ) (st : EmState P)
    (h : (emUpdate m data st.modelSlot params).1 = .ok (p', post', .fin q))
    (hitr : itr > 1) (hlast : lps.getLast? = some prev)
    (hconv : |q - prev| < tol ∧ v = true) :
    emLoop m data tol v (fuel + 1) itr params lps post st =
      (.ok (lps ++ [q], some post', p'), bump st) := by
  simp only [emLoop, h, hitr, hlast, hconv, if_true, bump, emUpdate_snd]
  simp

/-- One loop step with a finite likelihood, `itr > 1` and the convergence
condition not satisfied: the loop recurses. -/
theorem emLoop_step_cont (m : Model P Post D) (data : D) (tol : ℚ) (v : Bool)
    (fuel itr : ℕ) (params p' : P) (lps : List ℚ) (post : Option Post)
    (post' : Post) (q prev : ℚ) (st : EmState P)
    (h : (emUpdate m data st.modelSlot params).1 = .ok (p', post', .fin q))
    (hitr : itr > 1) (hlast : lps.getLast? = some prev)
    (hconv : ¬ (|q - prev| < tol ∧ v = true)) :
    emLoop m data tol v (fuel + 1) itr params lps post st =
      emLoop m data tol v fuel (itr + 1) p' (lps ++ [q]) (some post') (bump st) := by
  simp only [emLoop, h, hitr, hlast, hconv, if_true, if_false, bump, emUpdate_snd]

/-- One loop step with a finite likelihood, `itr > 1` and an empty recorded
history (unreachable in driver-initiated runs): the loop recurses. -/
theorem emLoop_step_nolast (m : Model P Post D) (data : D) (tol : ℚ) (v : Bool)
    (fuel itr : ℕ) (params p' : P) (lps : List ℚ) (post : Option Post)
    (post' : Post) (q : ℚ) (st : EmState P)
    (h : (emUpdate m data st.modelSlot params).1 = .ok (p', post', .fin q))
    (hitr : itr > 1) (hlast : lps.getLast? = none) :
    emLoop m data tol v (fuel + 1) itr params lps post st =
      emLoop m data tol v fuel (itr + 1) p' (lps ++ [q]) (some post') (bump st) := by
  simp only [emLoop, h, hitr, hlast, if_true, bump, emUpdate_snd]

/-- Across any number of loop iterations, the model slot, the driver's
direct-write count and the warning count are unchanged: the loop only ever
touches the slot through the injection context, and the decrease branch is a
`pass`. -/
theorem emLoop_state_invariant (m : Model P Post D) (data : D) (tol : ℚ) (v : Bool) :
    ∀ (fuel itr : ℕ) (params : P) (lps : List ℚ) (post : Option Post) (st : EmState P),
      ((emLoop m data tol v fuel itr params lps post st).2).modelSlot = st.modelSlot ∧
      ((emLoop m data tol v fuel itr params lps post st).2).directWrites = st.directWrites ∧
      ((emLoop m data tol v fuel itr params lps post st).2).warnsEmitted = st.warnsEmitted := by
  intro fuel
  induction fuel with
  | zero => intro itr params lps post st; exact ⟨rfl, rfl, rfl⟩
  | succ n ih =>
    intro itr params lps post st
    rcases hupd : (emUpdate m data st.modelSlot params).1 with e | ⟨p', post', lp⟩
    · rw [emLoop_step_err m data tol v n itr params lps post st e hupd]
      exact ⟨rfl, rfl, rfl⟩
    · cases lp with
      | nonfin =>
        rw [emLoop_step_nonfin m data tol v n itr params p' lps post post' st hupd]
        exact ⟨rfl, rfl, rfl⟩
      | fin q =>
        by_cases hitr : itr > 1
        · cases hlast : lps.getLast? with
          | none =>
            rw [emLoop_step_nolast m data tol v n itr params p' lps post post' q st hupd hitr hlast]
            exact ih (itr + 1) p' (lps ++ [q]) (some post') (bump st)
          | some prev =>
            by_cases hconv : |q - prev| < tol ∧ v = true
            · rw [emLoop_step_break m data tol v n itr params p' lps post post' q prev st
                hupd hitr hlast hconv]
              exact ⟨rfl, rfl, rfl⟩
            · rw [emLoop_step_cont m data tol v n itr params p' lps post post' q prev st
                hupd hitr hlast hconv]
              exact ih (itr + 1) p' (lps ++ [q]) (some post') (bump st)
        · rw [emLoop_step_early m data tol v n itr params p' lps post post' q st hupd hitr]
          exact ih (itr + 1) p' (lps ++ [q]) (some post') (bump st)

/-- A successful loop run only ever appends to the recorded history. -/
theorem emLoop_ok_length_mono (m : Model P Post D) (data : D) (tol : ℚ) (v : Bool) :
    ∀ (fuel itr : ℕ) (params : P) (lps : List ℚ) (post : Option Post) (st : EmState P)
      (lps' : List ℚ) (post' : Option Post) (params' : P) (st' : EmState P),
      emLoop m data tol v fuel itr params lps post st = (.ok (lps', post', params'), st') →
      lps.length ≤ lps'.length := by
  intro fuel
  induction fuel with
  | zero =>
    intro itr params lps post st lps' post' params' st' h
    simp only [emLoop, Prod.mk.injEq, Except.ok.injEq] at h
    obtain ⟨⟨h1, -, -⟩, -⟩ := h
    exact h1 ▸ le_refl _
  | succ n ih =>
    intro itr params lps post st lps' post' params' st' h
    rcases hupd : (emUpdate m data st.modelSlot params).1 with e | ⟨p', postr, lp⟩
    · rw [emLoop_step_err m data tol v n itr params lps post st e hupd] at h
      simp at h
    · cases lp with
      | nonfin =>
        rw [emLoop_step_nonfin m data tol v n itr params p' lps post postr st hupd] at h
        simp at h
      | fin q =>
        have hgrow : lps.length ≤ (lps ++ [q]).length := by simp
        by_cases hitr : itr > 1
        · cases hlast : lps.getLast? with
          | none =>
            rw [emLoop_step_nolast m data tol v n itr params p' lps post postr q st
              hupd hitr hlast] at h
            exact le_trans hgrow (ih _ _ _ _ _ _ _ _ _ h)
          | some prev =>
            by_cases hconv : |q - prev| < tol ∧ v = true
            · rw [emLoop_step_break m data tol v n itr params p' lps post postr q prev st
                hupd hitr hlast hconv] at h
              simp only [Prod.mk.injEq, Except.ok.injEq] at h
              obtain ⟨⟨h1, -, -⟩, -⟩ := h
              exact h1 ▸ hgrow
            · rw [emLoop_step_cont m data tol v n itr params p' lps post postr q prev st
                hupd hitr hlast hconv] at h
              exact le_trans hgrow (ih _ _ _ _ _ _ _ _ _ h)
        · rw [emLoop_step_early m data tol v n itr params p' lps post postr q st hupd hitr] at h
          exact le_trans hgrow (ih _ _ _ _ _ _ _ _ _ h)

/-- With `verbosity == OFF` (`vGtOff = false`) the convergence break is
unreachable: a successful loop run consumes its entire fuel, recording one
bound per iteration. -/
theorem emLoop_false_full_budget (m : Model P Post D) (data : D) (tol : ℚ) :
    ∀ (fuel itr : ℕ) (params : P) (lps : List ℚ) (post : Option Post) (st : EmState P)
      (lps' : List ℚ) (post' : Option Post) (params' : P) (st' : EmState P),
      emLoop m data tol false fuel itr params lps post st = (.ok (lps', post', params'), st') →
      lps'.length = lps.length + fuel := by
  intro fuel
  induction fuel with
  | zero =>
    intro itr params lps post st lps' post' params' st' h
    simp only [emLoop, Prod.mk.injEq, Except.ok.injEq] at h
    obtain ⟨⟨h1, -, -⟩, -⟩ := h
    simp [h1]
  | succ n ih =>
    intro itr params lps post st lps' post' params' st' h
    rcases hupd : (emUpdate m data st.modelSlot params).1 with e | ⟨p', postr, lp⟩
    · rw [emLoop_step_err m data tol false n itr params lps post st e hupd] at h
      simp at h
    · cases lp with
      | nonfin =>
        rw [emLoop_step_nonfin m data tol false n itr params p' lps post postr st hupd] at h
        simp at h
      | fin q =>
        have hstep : (lps ++ [q]).length + n = lps.length + (n + 1) := by
          simp; omega
        by_cases hitr : itr > 1
        · cases hlast : lps.getLast? with
          | none =>
            rw [emLoop_step_nolast m data tol false n itr params p' lps post postr q st
              hupd hitr hlast] at h
            rw [ih _ _ _ _ _ _ _ _ _ h, hstep]
          | some prev =>
            have hconv : ¬ (|q - prev| < tol ∧ false = true) := by simp
            rw [emLoop_step_cont m data tol false n itr params p' lps post postr q prev st
              hupd hitr hlast hconv] at h
            rw [ih _ _ _ _ _ _ _ _ _ h, hstep]
        · rw [emLoop_step_early m data tol false n itr params p' lps post postr q st
            hupd hitr] at h
          rw [ih _ _ _ _ _ _ _ _ _ h, hstep]

/-- The convergence break requires `itr > 1`, so a successful loop run begun
at index `itr` with `itr` recorded bounds records at least
`min (itr + fuel) 3` bounds: the first two iterations never break. -/
theorem emLoop_ok_min_three (m : Model P Post D) (data : D) (tol : ℚ) (v : Bool) :
    ∀ (fuel itr : ℕ) (params : P) (lps : List ℚ) (post : Option Post) (st : EmState P)
      (lps' : List ℚ) (post' : Option Post) (params' : P) (st' : EmState P),
      lps.length = itr →
      emLoop m data tol v fuel itr params lps post st = (.ok (lps', post', params'), st') →
      min (itr + fuel) 3 ≤ lps'.length := by
  intro fuel
  induction fuel with
  | zero =>
    intro itr params lps post st lps' post' params' st' hlen h
    simp only [emLoop, Prod.mk.injEq, Except.ok.injEq] at h
    obtain ⟨⟨h1, -, -⟩, -⟩ := h
    subst h1
    omega
  | succ n ih =>
    intro itr params lps post st lps' post' params' st' hlen h
    rcases hupd : (emUpdate m data st.modelSlot params).1 with e | ⟨p', postr, lp⟩
    · rw [emLoop_step_err m data tol v n itr params lps post st e hupd] at h
      simp at h
    · cases lp with
      | nonfin =>
        rw [emLoop_step_nonfin m data tol v n itr params p' lps post postr st hupd] at h
        simp at h
      | fin q =>
        have hlen' : (lps ++ [q]).length = itr + 1 := by simp [hlen]
        by_cases hitr : itr > 1
        · cases hlast : lps.getLast? with
          | none =>
            rw [emLoop_step_nolast m data tol v n itr params p' lps post postr q st
              hupd hitr hlast] at h
            have := ih _ _ _ _ _ _ _ _ _ hlen' h
            omega
          | some prev =>
            by_cases hconv : |q - prev| < tol ∧ v = true
            · rw [emLoop_step_break m data tol v n itr params p' lps post postr q prev st
                hupd hitr hlast hconv] at h
              simp only [Prod.mk.injEq, Except.ok.injEq] at h
              obtain ⟨⟨h1, -, -⟩, -⟩ := h
              subst h1
              simp only [List.length_append, List.length_cons, List.length_nil, hlen]
              omega
            · rw [emLoop_step_cont m data tol v n itr params p' lps post postr q prev st
                hupd hitr hlast hconv] at h
              have := ih _ _ _ _ _ _ _ _ _ hlen' h
              omega
        · rw [emLoop_step_early m data tol v n itr params p' lps post postr q st hupd hitr] at h
          have := ih _ _ _ _ _ _ _ _ _ hlen' h
          omega

/-- When every M-step returns a record and every marginal likelihood is
finite, the loop returns normally, and it has bound a posterior whenever at
least one iteration ran. -/
theorem emLoop_ok_of_good (m : Model P Post D) (data : D) (tol : ℚ) (v : Bool)
    (hm : ∀ (p : P) (post : Post), (m.m_step p data post).isSome = true)
    (hf : ∀ (p : P) (post : Post), m.marginal_likelihood p data post ≠ .nonfin) :
    ∀ (fuel itr : ℕ) (params : P) (lps : List ℚ) (post : Option Post) (st : EmState P),
      ∃ lps' post' params' st',
        emLoop m data tol v fuel itr params lps post st = (.ok (lps', post', params'), st') ∧
        (fuel = 0 → post' = post) ∧ (1 ≤ fuel → post'.isSome = true) := by
  intro fuel
  induction fuel with
  | zero =>
    intro itr params lps post st
    exact ⟨lps, post, params, st, rfl, fun _ => rfl, fun hk => by omega⟩
  | succ n ih =>
    intro itr params lps post st
    obtain ⟨newP, hms⟩ := Option.isSome_iff_exists.mp (hm params (m.e_step params data))
    have hupd : (emUpdate m data st.modelSlot params).1 =
        .ok (newP, m.e_step params data,
             m.marginal_likelihood params data (m.e_step params data)) := by
      rw [emUpdate_eq_of_m_step_some m data st.modelSlot params newP hms]
    cases hq : m.marginal_likelihood params data (m.e_step params data) with
    | nonfin => exact absurd hq (hf _ _)
    | fin q =>
      rw [hq] at hupd
      have hsome : ∀ (lps₁ : List ℚ) (st₁ : EmState P),
          (∃ lps' post' params' st',
            emLoop m data tol v n (itr + 1) newP lps₁
              (some (m.e_step params data)) st₁ = (.ok (lps', post', params'), st') ∧
            (n = 0 → post' = some (m.e_step params data)) ∧
            (1 ≤ n → post'.isSome = true)) →
          ∃ lps' post' params' st',
            emLoop m data tol v n (itr + 1) newP lps₁
              (some (m.e_step params data)) st₁ = (.ok (lps', post', params'), st') ∧
            post'.isSome = true := by
        intro lps₁ st₁ hih
        obtain ⟨lps', post', params', st', heq, h0, h1⟩ := hih
        refine ⟨lps', post', params', st', heq, ?_⟩
        cases n with
        | zero => rw [h0 rfl]; rfl
        | succ k => exact h1 (by omega)
      by_cases hitr : itr > 1
      · cases hlast : lps.getLast? with
        | none =>
          rw [emLoop_step_nolast m data tol v n itr params newP lps post
            (m.e_step params data) q st hupd hitr hlast]
          obtain ⟨lps', post', params', st', heq, hps⟩ :=
            hsome (lps ++ [q]) (bump st) (ih (itr + 1) newP (lps ++ [q]) _ (bump st))
          exact ⟨lps', post', params', st', heq, fun h0 => by omega, fun _ => hps⟩
        | some prev =>
          by_cases hconv : |q - prev| < tol ∧ v = true
          · rw [emLoop_step_break m data tol v n itr params newP lps post
              (m.e_step params data) q prev st hupd hitr hlast hconv]
            exact ⟨lps ++ [q], some (m.e_step params data), newP, bump st, rfl,
              fun h0 => by omega, fun _ => rfl⟩
          · rw [emLoop_step_cont m data tol v n itr params newP lps post
              (m.e_step params data) q prev st hupd hitr hlast hconv]
            obtain ⟨lps', post', params', st', heq, hps⟩ :=
              hsome (lps ++ [q]) (bump st) (ih (itr + 1) newP (lps ++ [q]) _ (bump st))
            exact ⟨lps', post', params', st', heq, fun h0 => by omega, fun _ => hps⟩
      · rw [emLoop_step_early m data tol v n itr params newP lps post
          (m.e_step params data) q st hupd hitr]
        obtain ⟨lps', post', params', st', heq, hps⟩ :=
          hsome (lps ++ [q]) (bump st) (ih (itr + 1) newP (lps ++ [q]) _ (bump st))
        exact ⟨lps', post', params', st', heq, fun h0 => by omega, fun _ => hps⟩

/-- Unfolding `em` when the loop succeeds with a bound posterior. -/
theorem em_eq_of_loop_ok (m : Model P Post D) (data : D) (n : ℕ) (tol : ℚ) (v : Bool)
    (lps' : List ℚ) (post' : Post) (params' : P) (st' : EmState P)
    (h : emLoop m data tol v n 0 m.params [] none
          ⟨m.params, 0, 0, 0⟩ = (.ok (lps', some post', params'), st')) :
    em m data n tol v =
      (.ok (lps', params', post'),
       { st' with modelSlot := params', directWrites := st'.directWrites + 1 }) := by
  simp only [em, h]

/-- Unfolding `em` when the loop succeeds without ever binding a posterior
(zero executed iterations): the final `return` raises. -/
theorem em_eq_of_loop_ok_none (m : Model P Post D) (data : D) (n : ℕ) (tol : ℚ) (v : Bool)
    (lps' : List ℚ) (params' : P) (st' : EmState P)
    (h : emLoop m data tol v n 0 m.params [] none
          ⟨m.params, 0, 0, 0⟩ = (.ok (lps', none, params'), st')) :
    em m data n tol v =
      (.error .unboundPosterior,
       { st' with modelSlot := params', directWrites := st'.directWrites + 1 }) := by
  simp only [em, h]

/-- Unfolding `em` when the loop raises: the exception propagates before the
driver's final direct write. -/
theorem em_eq_of_loop_err (m : Model P Post D) (data : D) (n : ℕ) (tol : ℚ) (v : Bool)
    (e : EmError) (st' : EmState P)
    (h : emLoop m data tol v n 0 m.params [] none
          ⟨m.params, 0, 0, 0⟩ = (.error e, st')) :
    em m data n tol v = (.error e, st') := by
  simp only [em, h]

/-! ### Claim theorems -/

/-- Claim C8: entering the scoped injection context makes the model behave as
if constructed with the replacement parameters (the scoped block runs against
them), and on every exit path - normal return or raised error - the model's
externally visible parameter slot is restored to its exact pre-scope value
before control propagates. -/
theorem inject_restores_parameters_on_every_exit
    (slot params : P) (body : P → Except E (A × P)) :
    (inject slot params body).2 = slot ∧
    (inject slot params body).1 = Except.map Prod.fst (body params) := by
  unfold inject
  cases hb : body params with
  | ok a => cases a; simp [Except.map]
  | error e => simp [Except.map]

/-- Claim C10: with a budget of at least three iterations, a run of `em` that
returns normally has recorded at least three bounds: the convergence
comparison is gated by `itr > 1`, so the driver never stops for convergence
before completing its third iteration, even if the first two recorded bounds
differ by less than `tol`. -/
theorem em_never_stops_before_third_iteration
    (m : Model P Post D) (data : D) (n : ℕ) (tol : ℚ) (v : Bool)
    (lps : List ℚ) (params : P) (post : Post)
    (hn : 3 ≤ n)
    (h : (em m data n tol v).1 = .ok (lps, params, post)) :
    3 ≤ lps.length := by
  rcases hloop : emLoop m data tol v n 0 m.params [] none
      ⟨m.params, 0, 0, 0⟩ with ⟨res, st'⟩
  rcases res with e | ⟨lps', post', params'⟩
  · rw [em_eq_of_loop_err m data n tol v e st' hloop] at h
    simp at h
  · rcases post' with - | pp
    · rw [em_eq_of_loop_ok_none m data n tol v lps' params' st' hloop] at h
      simp at h
    · rw [em_eq_of_loop_ok m data n tol v lps' pp params' st' hloop] at h
      simp only [Except.ok.injEq, Prod.mk.injEq] at h
      obtain ⟨h1, -, -⟩ := h
      have hmin := emLoop_ok_min_three m data tol v n 0 m.params [] none
        ⟨m.params, 0, 0, 0⟩ lps' (some pp) params' st' rfl hloop
      rw [← h1]
      omega

/-- Witness for C10: a model with constant bound, tolerance 1 and a budget of
5 verbose iterations converges and stops, but only after its third
iteration. -/
theorem em_never_stops_before_third_iteration_witness :
    3 ≤ ([0, 0, 0] : List ℚ).length :=
  em_never_stops_before_third_iteration constModel () 5 1 true [0, 0, 0] 0 0
    (by norm_num)
    (by norm_num [em, emLoop, emUpdate, inject, constModel, toyModel, abs_lt])

/-- Claim C4: a non-finite total marginal likelihood computed in an iteration
is fatal: the `assert np.isfinite(lp)` fails at that very iteration, the
result does not depend on the remaining budget (no further iterations
execute, exactly one more update ran), and `em` surfaces the assertion error
to the caller. -/
theorem em_nonfinite_likelihood_fatal (m : Model P Post D) (data : D)
    (tol : ℚ) (v : Bool) :
    (∀ (fuel itr : ℕ) (params newP : P) (lps : List ℚ) (post : Option Post)
       (st : EmState P),
       m.m_step params data (m.e_step params data) = some newP →
       m.marginal_likelihood params data (m.e_step params data) = .nonfin →
       emLoop m data tol v (fuel + 1) itr params lps post st =
         (.error .assertNonFinite, bump st)) ∧
    (∀ (k : ℕ) (newP : P),
       m.m_step m.params data (m.e_step m.params data) = some newP →
       m.marginal_likelihood m.params data (m.e_step m.params data) = .nonfin →
       em m data (k + 1) tol v =
         (.error .assertNonFinite,
          { modelSlot := m.params, directWrites := 0, itersRun := 1,
            warnsEmitted := 0 })) := by
  have step : ∀ (fuel itr : ℕ) (params newP : P) (lps : List ℚ) (post : Option Post)
      (st : EmState P),
      m.m_step params data (m.e_step params data) = some newP →
      m.marginal_likelihood params data (m.e_step params data) = .nonfin →
      emLoop m data tol v (fuel + 1) itr params lps post st =
        (.error .assertNonFinite, bump st) := by
    intro fuel itr params newP lps post st hms hml
    have hupd : (emUpdate m data st.modelSlot params).1 =
        .ok (newP, m.e_step params data, FVal.nonfin) := by
      rw [emUpdate_eq_of_m_step_some m data st.modelSlot params newP hms, hml]
    exact emLoop_step_nonfin m data tol v fuel itr params newP lps post
      (m.e_step params data) st hupd
  refine ⟨step, ?_⟩
  intro k newP hms hml
  exact em_eq_of_loop_err m data (k + 1) tol v .assertNonFinite _
    (step k 0 m.params newP [] none ⟨m.params, 0, 0, 0⟩ hms hml)

/-- Witness for C4: a model whose marginal likelihood is non-finite makes the
driver fail on its first iteration even with a budget of five. -/
theorem em_nonfinite_likelihood_fatal_witness :
    em nanModel () 5 (1/1000) true =
      (.error .assertNonFinite,
       { modelSlot := 0, directWrites := 0, itersRun := 1, warnsEmitted := 0 }) :=
  (em_nonfinite_likelihood_fatal nanModel () (1/1000) true).2 4 0 rfl rfl

/-- Claim C7 counterexample: in a one-iteration run of a model whose marginal
likelihood equals its current parameter and whose M-step increments it, the
recorded bound is 0 - the likelihood under the iteration's starting
parameters - while the likelihood under the updated parameters the run
returns is 1. -/
theorem em_recorded_lp_predates_m_step_cex :
    (em stepModel () 1 (1/1000) true).1 = .ok ([0], 1, 0) ∧
    stepModel.marginal_likelihood 1 () 1 = .fin 1 ∧
    FVal.fin 0 ≠ FVal.fin 1 := by
  refine ⟨?_, rfl, by simp⟩
  norm_num [em, emLoop, emUpdate, inject, stepModel, toyModel, abs_lt]

/-- Claim C7 amended: within `update`, both the posterior and the recorded
marginal likelihood are computed from the parameters the iteration started
with, before `m_step` runs; the updated parameters only feed the next
iteration. -/
theorem emUpdate_lp_uses_starting_parameters
    (m : Model P Post D) (data : D) (slot params newP : P)
    (h : m.m_step params data (m.e_step params data) = some newP) :
    (emUpdate m data slot params).1 =
      .ok (newP, m.e_step params data,
           m.marginal_likelihood params data (m.e_step params data)) := by
  rw [emUpdate_eq_of_m_step_some m data slot params newP h]

/-- Witness for the amended C7 theorem at a concrete model. -/
theorem emUpdate_lp_uses_starting_parameters_witness :
    (emUpdate constModel () 0 0).1 = .ok (0, 0, .fin 0) :=
  emUpdate_lp_uses_starting_parameters constModel () 0 0 0 rfl

/-- Claim C9 counterexample: a one-iteration run ends with a direct driver
assignment to the model's parameter slot (`model._parameters = parameters`,
`em.py` line 88), so the count of direct writes in a run is not zero. -/
theorem em_direct_write_count_nonzero_cex :
    ((em stepModel () 1 (1/1000) true).2).directWrites = 1 ∧ (1 : ℕ) ≠ 0 := by
  refine ⟨?_, by simp⟩
  norm_num [em, emLoop, emUpdate, inject, stepModel, toyModel, abs_lt]

/-- Claim C9 amended: during the iterations the driver replaces parameters
only through the injection context - the loop leaves the model's parameter
slot and the direct-write count untouched - but after the loop the driver
performs one direct assignment of the final parameters to
`model._parameters`, so a run performs at most one direct write (exactly one
when the loop does not raise), always after the last iteration. -/
theorem em_direct_write_only_after_loop (m : Model P Post D) (data : D)
    (tol : ℚ) (v : Bool) :
    (∀ (fuel itr : ℕ) (params : P) (lps : List ℚ) (post : Option Post) (st : EmState P),
       ((emLoop m data tol v fuel itr params lps post st).2).modelSlot = st.modelSlot ∧
       ((emLoop m data tol v fuel itr params lps post st).2).directWrites = st.directWrites) ∧
    (∀ (n : ℕ), ((em m data n tol v).2).directWrites ≤ 1) := by
  constructor
  · intro fuel itr params lps post st
    obtain ⟨h1, h2, -⟩ := emLoop_state_invariant m data tol v fuel itr params lps post st
    exact ⟨h1, h2⟩
  · intro n
    have hzero : ((emLoop m data tol v n 0 m.params [] none
        ⟨m.params, 0, 0, 0⟩).2).directWrites = 0 :=
      (emLoop_state_invariant m data tol v n 0 m.params [] none ⟨m.params, 0, 0, 0⟩).2.1
    rcases hloop : emLoop m data tol v n 0 m.params [] none
        ⟨m.params, 0, 0, 0⟩ with ⟨res, st'⟩
    rw [hloop] at hzero
    simp only at hzero
    rcases res with e | ⟨lps', post', params'⟩
    · rw [em_eq_of_loop_err m data n tol v e st' hloop]
      simp only
      omega
    · rcases post' with - | pp
      · rw [em_eq_of_loop_ok_none m data n tol v lps' params' st' hloop]
        simp only
        omega
      · rw [em_eq_of_loop_ok m data n tol v lps' pp params' st' hloop]
        simp only
        omega

/-- Claim C1 counterexample: with verbosity OFF, a 5-iteration run whose
bounds are all 0 - so every consecutive difference is below the tolerance
`tol = 1` from the first comparison on - does not stop: it exhausts the full
budget and records 5 bounds. -/
theorem em_below_tol_no_stop_when_verbosity_off_cex :
    (em constModel () 5 1 false).1 = .ok ([0, 0, 0, 0, 0], 0, 0) ∧
    |(0 : ℚ) - 0| < 1 ∧
    ([0, 0, 0, 0, 0] : List ℚ).length = 5 := by
  refine ⟨?_, by norm_num, by norm_num⟩
  norm_num [em, emLoop, emUpdate, inject, constModel, toyModel, abs_lt]

/-- Claim C1 amended: the driver stops for convergence at an iteration only
when the iteration index exceeds 1, verbosity is above OFF, and the last two
recorded bounds differ by less than `tol` (then it stops regardless of the
remaining budget); with verbosity OFF a successful run always exhausts the
full `num_iters` budget, recording one bound per iteration. -/
theorem em_convergence_stop_characterized (m : Model P Post D) (data : D) :
    (∀ (n : ℕ) (tol : ℚ) (lps : List ℚ) (params : P) (post : Post),
       (em m data n tol false).1 = .ok (lps, params, post) → lps.length = n) ∧
    (∀ (tol : ℚ) (fuel itr : ℕ) (params p' : P) (lps : List ℚ) (post : Option Post)
       (post' : Post) (q prev : ℚ) (st : EmState P),
       (emUpdate m data st.modelSlot params).1 = .ok (p', post', .fin q) →
       itr > 1 → lps.getLast? = some prev → |q - prev| < tol →
       emLoop m data tol true (fuel + 1) itr params lps post st =
         (.ok (lps ++ [q], some post', p'), bump st)) := by
  constructor
  · intro n tol lps params post h
    rcases hloop : emLoop m data tol false n 0 m.params [] none
        ⟨m.params, 0, 0, 0⟩ with ⟨res, st'⟩
    rcases res with e | ⟨lps', post', params'⟩
    · rw [em_eq_of_loop_err m data n tol false e st' hloop] at h
      simp at h
    · rcases post' with - | pp
      · rw [em_eq_of_loop_ok_none m data n tol false lps' params' st' hloop] at h
        simp at h
      · rw [em_eq_of_loop_ok m data n tol false lps' pp params' st' hloop] at h
        simp only [Except.ok.injEq, Prod.mk.injEq] at h
        obtain ⟨h1, -, -⟩ := h
        have hfull := emLoop_false_full_budget m data tol n 0 m.params [] none
          ⟨m.params, 0, 0, 0⟩ lps' (some pp) params' st' hloop
        rw [← h1]
        simpa using hfull
  · intro tol fuel itr params p' lps post post' q prev st hupd hitr hlast htol
    exact emLoop_step_break m data tol true fuel itr params p' lps post post' q prev st
      hupd hitr hlast ⟨htol, rfl⟩

/-- Witness for the amended C1 theorem: both the full-budget branch (at a
constant-bound model, verbosity OFF) and the break branch (at iteration
index 2 with matching bounds, verbosity on) at concrete inputs. -/
theorem em_convergence_stop_characterized_witness :
    ([0, 0, 0, 0, 0] : List ℚ).length = 5 ∧
    emLoop constModel () 1 true (2 + 1) 2 0 [0, 0] (some 0) ⟨0, 0, 2, 0⟩ =
      (.ok ([0, 0, 0], some 0, 0), bump ⟨0, 0, 2, 0⟩) := by
  constructor
  · exact (em_convergence_stop_characterized constModel ()).1 5 1 [0, 0, 0, 0, 0] 0 0
      (by norm_num [em, emLoop, emUpdate, inject, constModel, toyModel, abs_lt])
  · exact (em_convergence_stop_characterized constModel ()).2 1 2 2 0 0 [0, 0] (some 0)
      0 0 0 ⟨0, 0, 2, 0⟩
      (by norm_num [emUpdate, inject, constModel, toyModel])
      (by norm_num) (by norm_num) (by norm_num)

/-- Claim C2: a run with `num_iters = 0` does not return normally: the loop
body never executes, `posterior` is never bound, and the final
`return np.array(log_probs), model, posterior` raises `UnboundLocalError`.
Up to that point the bound history is empty and the model parameter slot
still holds the initial parameters (here 7), with zero executed
iterations. -/
theorem em_zero_iters_raises_unbound_posterior :
    em (toyModel 7 (fun p => p + 1) (fun p => .fin p)) () 0 (1/1000) true =
      (.error .unboundPosterior,
       { modelSlot := 7, directWrites := 1, itersRun := 0, warnsEmitted := 0 }) := by
  norm_num [em, emLoop, toyModel]

/-- Claim C3 counterexample: a 3-iteration run whose bounds strictly decrease
(0, -1, -2) completes normally - but the driver emits no warning at any
iteration: the `warnings.warn` call in the decrease branch is commented out
(`pass`). -/
theorem em_decreasing_lp_no_warning_cex :
    (em decModel () 3 (1/1000000) true).1 = .ok ([0, -1, -2], 3, 2) ∧
    ((-1 : ℚ) < 0 ∧ (-2 : ℚ) < -1) ∧
    ((em decModel () 3 (1/1000000) true).2).warnsEmitted = 0 := by
  refine ⟨?_, ⟨by norm_num, by norm_num⟩, ?_⟩ <;>
    norm_num [em, emLoop, emUpdate, inject, decModel, toyModel, abs_lt]

/-- Claim C3 amended: a decrease of the marginal log-likelihood between
iterations neither warns nor aborts: the driver never emits a warning in any
run, and every run whose M-steps return a record and whose likelihoods are
finite returns normally after at least one iteration, whatever the direction
of the bound sequence. -/
theorem em_decrease_silently_tolerated (m : Model P Post D) (data : D)
    (n : ℕ) (tol : ℚ) (v : Bool)
    (hm : ∀ (p : P) (post : Post), (m.m_step p data post).isSome = true)
    (hf : ∀ (p : P) (post : Post), m.marginal_likelihood p data post ≠ .nonfin)
    (hn : 1 ≤ n) :
    ((em m data n tol v).2).warnsEmitted = 0 ∧
    ∃ out, (em m data n tol v).1 = .ok out := by
  obtain ⟨lps', post', params', st', hloop, -, hps⟩ :=
    emLoop_ok_of_good m data tol v hm hf n 0 m.params [] none ⟨m.params, 0, 0, 0⟩
  obtain ⟨pp, hpp⟩ := Option.isSome_iff_exists.mp (hps hn)
  subst hpp
  have hwarn : st'.warnsEmitted = 0 := by
    have := (emLoop_state_invariant m data tol v n 0 m.params [] none
      ⟨m.params, 0, 0, 0⟩).2.2
    rw [hloop] at this
    exact this
  rw [em_eq_of_loop_ok m data n tol v lps' pp params' st' hloop]
  exact ⟨hwarn, ⟨(lps', params', pp), rfl⟩⟩

/-- Witness for the amended C3 theorem at the strictly decreasing model. -/
theorem em_decrease_silently_tolerated_witness :
    ((em decModel () 3 (1/1000000) true).2).warnsEmitted = 0 ∧
    ∃ out, (em decModel () 3 (1/1000000) true).1 = .ok out :=
  em_decrease_silently_tolerated decModel () 3 (1/1000000) true
    (fun p post => rfl)
    (fun p post => by simp [decModel, toyModel])
    (by norm_num)

/-- The sum of a row divided entrywise by its own sum is 1 when the row sum
is nonzero. -/
theorem rowNormalize_sum (row : List ℚ) (hs : row.sum ≠ 0) :
    (rowNormalize row).sum = 1 := by
  have : (rowNormalize row).sum = row.sum * (row.sum)⁻¹ := by
    simp only [rowNormalize, div_eq_mul_inv]
    rw [show (fun w => w * (row.sum)⁻¹) = (fun w => id w * (row.sum)⁻¹) from rfl,
      List.sum_map_mul_right, List.map_id]
  rw [this, mul_inv_cancel₀ hs]

/-- A two-state HMM whose raw initial and transition logits are all 0, i.e.
weights all 1: the initial weights are unnormalized (they sum to 2). -/
def hmmCex : HMM :=
  { num_states := 2
    initial_weights := [1, 1]
    transition_weights := [[1, 1], [1, 1]]
    emission_ll := fun _ _ => 1
    initial_prior_concentration := [11/10, 11/10]
    transition_prior_concentration := [[11/10, 11/10], [11/10, 11/10]] }

/-- Claim C5 counterexample: for the HMM with unnormalized raw initial logits
`[0, 0]` (weights `[1, 1]`), the initial component of `natural_parameters`
sums to 2 in probability space, not 1: the source normalizes only the
transition rows, never the initial distribution. -/
theorem natural_parameters_initial_unnormalized_cex :
    ¬ (((hmmCex.natural_parameters [0]).1).sum = 1 ∧
       ∀ row ∈ (hmmCex.natural_parameters [0]).2.1, row.sum = 1) := by
  intro hclaim
  have h1 := hclaim.1
  norm_num [HMM.natural_parameters, hmmCex] at h1

/-- Claim C5 amended: `natural_parameters` returns the initial-state weights
exactly as stored (so `exp(log_initial)` sums to 1 only if the raw initial
logits were already normalized), while every row of the returned transition
matrix sums to 1 in probability space whenever the raw row weights have
positive sum - as exponentials of real logits always do. -/
theorem natural_parameters_normalize_transition_rows_only
    (h : HMM) (data : List ℚ)
    (hpos : ∀ row ∈ h.transition_weights, 0 < row.sum) :
    (h.natural_parameters data).1 = h.initial_weights ∧
    ∀ row ∈ (h.natural_parameters data).2.1, row.sum = 1 := by
  refine ⟨rfl, ?_⟩
  intro row hrow
  simp only [HMM.natural_parameters, List.mem_map] at hrow
  obtain ⟨raw, hraw, rfl⟩ := hrow
  exact rowNormalize_sum raw (ne_of_gt (hpos raw hraw))

/-- Witness for the amended C5 theorem: a concrete transition row `[1, 3]`
of a two-state HMM with positive weights normalizes to sum 1. -/
theorem natural_parameters_normalize_transition_rows_only_witness :
    (rowNormalize [1, 3]).sum = 1 :=
  (natural_parameters_normalize_transition_rows_only
      { num_states := 2
        initial_weights := [1, 1]
        transition_weights := [[1, 3], [2, 2]]
        emission_ll := fun _ _ => 1
        initial_prior_concentration := [11/10, 11/10]
        transition_prior_concentration := [[11/10, 11/10], [11/10, 11/10]] }
      [0]
      (by intro row hrow
          simp only [List.mem_cons, List.not_mem_nil, or_false] at hrow
          rcases hrow with rfl | rfl <;> norm_num)).2
    (rowNormalize [1, 3]) (by simp [HMM.natural_parameters])

/-- Claim C6: `HMM.m_step` has no `return` statement, so it returns `None`
for every HMM instance, emission-update override, dataset and posterior; and
consequently, any `em` run driving such an HMM fails with the
`AttributeError` from `new_model._parameters` on its first iteration, instead
of yielding updated parameters. -/
theorem hmm_m_step_returns_none :
    (∀ (h : HMM) (emissionUpdate : HMM → List ℚ → HMMPosterior → HMM)
       (dataset : List ℚ) (post : HMMPosterior),
       (HMM.m_step h emissionUpdate dataset post).2 = none) ∧
    (∀ (emissionUpdate : HMM → List ℚ → HMMPosterior → HMM)
       (es : HMM → List ℚ → HMMPosterior)
       (ml : HMM → List ℚ → HMMPosterior → FVal)
       (h0 : HMM) (dataset : List ℚ) (k : ℕ) (tol : ℚ) (v : Bool),
       (em { params := h0, e_step := es, marginal_likelihood := ml,
             m_step := fun hh d p => (HMM.m_step hh emissionUpdate d p).2 }
          dataset (k + 1) tol v).1 = .error .attrNone) := by
  constructor
  · intro h emissionUpdate dataset post
    rfl
  · intro emissionUpdate es ml h0 dataset k tol v
    set M : Model HMM HMMPosterior (List ℚ) :=
      { params := h0, e_step := es, marginal_likelihood := ml,
        m_step := fun hh d p => (HMM.m_step hh emissionUpdate d p).2 } with hM
    have hupd : (emUpdate M dataset h0 h0).1 = .error .attrNone := by
      rw [emUpdate_eq_of_m_step_none M dataset h0 h0 rfl]
    have hloop := emLoop_step_err M dataset tol v k 0 h0 [] none
      ⟨h0, 0, 0, 0⟩ .attrNone hupd
    rw [em_eq_of_loop_err M dataset (k + 1) tol v .attrNone (bump ⟨h0, 0, 0, 0⟩) hloop]

end SsmJax
